import Mathlib

/-!
Verification of the thread-sharded stats aggregation engine
(src/common/stats/cbits/hs_stats.cpp).

The C file is a thin layer: name-to-member resolution loops, the
server_histogram_* entry points (null checks, lookup, sentinel -1), and
wrappers around the generic templates perXStatsGetall / perXTimeSeriesGet /
perXTimeSeriesGetall declared in hs_stats.h.  The templates and the
Histogram / TimeSeries internals are not part of this repository snapshot,
so those parts are modelled from the specification (each such definition
says so in its doc comment).  Conventions of the embedding:

* HsDouble values are modelled as exact rationals.
* int64_t counters are modelled as unbounded integers.
* C hash maps are modelled as association lists; a per-key stats block is
  modelled as a function from the resolved slot to the stored value, which
  is what a pointer-to-member projection reads.
* a StatsHolder* handle is an Option: none models the null pointer.
* out-parameter buffers are passed in and returned, so that a failure
  leaving them untouched is expressed as returning them unchanged.
-/

set_option autoImplicit false

namespace HsStats

/-! ## Name resolution -/

/-- Counter-slot resolution, from setPerStreamStatsMember /
setPerSubscriptionStatsMember in hs_stats.cpp: the expanded STAT_DEFINE
blocks compare the requested name against each table entry in order and
assign the member pointer on an exact string match, with no early exit, so
a later matching entry overwrites an earlier one.  The table contents come
from the .inc files and are a parameter here.  The resolved slot is the
matched name itself. -/
def resolveCounter (tbl : List String) (stat_name : String) : Option String :=
  tbl.foldl (fun acc n => if n = stat_name then some n else acc) none

/-- Time-series-slot resolution, from setPerStreamTimeSeriesMember /
setPerSubscriptionTimeSeriesMember in hs_stats.cpp: each TIME_SERIES_DEFINE
entry carries a list of alias strings; the loop assigns the entry's member
pointer when the requested name equals one of them (breaking only out of
that entry's alias loop), and later entries overwrite earlier ones.  A slot
(member pointer) is modelled as a natural number. -/
def resolveTimeSeries (tbl : List (ℕ × List String)) (stat_name : String) : Option ℕ :=
  tbl.foldl (fun acc e => if stat_name ∈ e.2 then some e.1 else acc) none

/-- Association-list lookup (first entry with the given key), the shallow
rendering of the C++ map find operations. -/
def lookupKV {β : Type} (l : List (String × β)) (k : String) : Option β :=
  match l with
  | [] => none
  | (k1, v1) :: rest => if k = k1 then some v1 else lookupKV rest k

/-! ## Histogram -/

/-- Modelled from the spec: a HistogramBucket is a bucket range with a
sample count; the Histogram owns an ordered sequence of them. -/
structure Bucket where
  lo : ℚ
  hi : ℚ
  count : ℕ
  deriving DecidableEq

abbrev Histogram := List Bucket

/-- Total number of samples recorded in the histogram. -/
def totalCount (h : Histogram) : ℕ :=
  (h.map Bucket.count).sum

/-- A well-formed histogram has non-negative, ordered bucket ranges
(bucket bounds are increasing and cover a subrange of [0, infinity)). -/
def wfHistogram (h : Histogram) : Prop :=
  ∀ b ∈ h, 0 ≤ b.lo ∧ b.lo ≤ b.hi

/-- Modelled from the spec: scan the buckets keeping a running cumulative
count; the first bucket with a nonzero count whose cumulative range reaches
the target sample index is the one containing the requested quantile, and
the estimate interpolates linearly inside its range by the fraction of its
count needed to reach the target.  Past the last bucket the estimate is 0. -/
def estFrom (target : ℚ) : ℚ → Histogram → ℚ
  | _, [] => 0
  | cum, b :: bs =>
    if 0 < b.count ∧ target ≤ cum + (b.count : ℚ) then
      b.lo + (b.hi - b.lo) * ((target - cum) / (b.count : ℚ))
    else
      estFrom target (cum + (b.count : ℚ)) bs

/-- Modelled from the spec: estimatePercentile finds the bucket containing
the p-th quantile of the total count and interpolates within it; on an
empty histogram no bucket has a positive count and the scan yields 0. -/
def estimatePercentile (h : Histogram) (p : ℚ) : ℚ :=
  estFrom (p * (totalCount h : ℚ)) 0 h

/-- One pass over the buckets computing each bucket's cumulative predecessor
count, the shared structure used by the batch percentile estimate. -/
def cumBuckets : ℚ → Histogram → List (ℚ × Bucket)
  | _, [] => []
  | cum, b :: bs => (cum, b) :: cumBuckets (cum + (b.count : ℚ)) bs

/-- Answer one percentile target from the precomputed cumulative list:
pick the first nonzero-count bucket whose cumulative range reaches the
target and interpolate inside it.  Walking the precomputed list does not
re-sum any counts, so the buckets themselves are traversed only once per
batch call. -/
def estFromCum (target : ℚ) : List (ℚ × Bucket) → ℚ
  | [] => 0
  | cb :: l =>
    if 0 < cb.2.count ∧ target ≤ cb.1 + (cb.2.count : ℚ) then
      cb.2.lo + (cb.2.hi - cb.2.lo) * ((target - cb.1) / (cb.2.count : ℚ))
    else estFromCum target l

/-- Modelled from the spec: the estimated sum of all recorded values,
computed from bucket midpoints. -/
def histogramSum (h : Histogram) : ℚ :=
  (h.map (fun b => (b.count : ℚ) * ((b.lo + b.hi) / 2))).sum

/-- Modelled from the spec: the batch estimatePercentiles makes a single
pass over the buckets (building the cumulative-count list once), answers
every requested percentile from it, and also returns the total sample
count and the estimated sum. -/
def estimatePercentiles (h : Histogram) (ps : List ℚ) : List ℚ × ℕ × ℚ :=
  let cl := cumBuckets 0 h
  (ps.map (fun p => estFromCum (p * (totalCount h : ℚ)) cl), totalCount h, histogramSum h)

/-- Modelled from the spec: Histogram.add increments the count of the
bucket whose range contains the value. -/
def bucketAdd : Histogram → ℚ → Histogram
  | [], _ => []
  | b :: bs, v =>
    if b.lo ≤ v ∧ v < b.hi then { b with count := b.count + 1 } :: bs
    else b :: bucketAdd bs v

/-! ## StatsHolder and the server histogram entry points -/

/-- The part of the aggregated Stats reachable from a StatsHolder that the
server histogram entry points consult: the server_histograms table, which
may itself be absent (a null table pointer). -/
structure StatsHolderData where
  server_histograms : Option (List (String × Histogram))

/-- A StatsHolder* handle; none models a null pointer. -/
abbrev StatsHolder := Option StatsHolderData

/-- The guard sequence shared by the server_histogram_* functions in
hs_stats.cpp: a non-null holder, a present server_histograms table, and a
successful find of the named histogram. -/
def findHistogram (stats_holder : StatsHolder) (stat_name : String) : Option Histogram :=
  match stats_holder with
  | none => none
  | some s =>
    match s.server_histograms with
    | none => none
    | some tbl => lookupKV tbl stat_name

/-- Replace the named histogram's buckets by their bucketAdd update,
leaving every other table entry unchanged. -/
def updateHistogramTable (tbl : List (String × Histogram)) (stat_name : String) (usecs : ℚ) :
    List (String × Histogram) :=
  match tbl with
  | [] => []
  | (n, h) :: rest =>
    if n = stat_name then (n, bucketAdd h usecs) :: rest
    else (n, h) :: updateHistogramTable rest stat_name usecs

/-- server_histogram_add from hs_stats.cpp: if the holder is non-null, the
server_histograms table present and the name found, add the sample and
return 0; otherwise return -1.  The (possibly updated) holder is returned
alongside the status to make the state effect explicit. -/
def server_histogram_add (stats_holder : StatsHolder) (stat_name : String) (usecs : ℚ) :
    Int × StatsHolder :=
  match stats_holder with
  | none => (-1, stats_holder)
  | some s =>
    match s.server_histograms with
    | none => (-1, stats_holder)
    | some tbl =>
      match lookupKV tbl stat_name with
      | none => (-1, stats_holder)
      | some _ => (0, some ⟨some (updateHistogramTable tbl stat_name usecs)⟩)

/-- The three out-parameter buffers of server_histogram_estimatePercentiles. -/
structure PercentileBuffers where
  samples_out : List ℚ
  count_out : ℕ
  sum_out : ℚ
  deriving DecidableEq

/-- server_histogram_estimatePercentiles from hs_stats.cpp: on the guarded
path delegate to the histogram's batch estimate, fill the out buffers and
return 0; otherwise return -1 with the buffers untouched. -/
def server_histogram_estimatePercentiles (stats_holder : StatsHolder) (stat_name : String)
    (percentiles : List ℚ) (bufs : PercentileBuffers) : Int × PercentileBuffers :=
  match findHistogram stats_holder stat_name with
  | none => (-1, bufs)
  | some h =>
    let r := estimatePercentiles h percentiles
    (0, ⟨r.1, r.2.1, r.2.2⟩)

/-- server_histogram_estimatePercentile from hs_stats.cpp: on the guarded
path return the histogram's estimate for the percentile, otherwise the
sentinel -1. -/
def server_histogram_estimatePercentile (stats_holder : StatsHolder) (stat_name : String)
    (percentile : ℚ) : ℚ :=
  match findHistogram stats_holder stat_name with
  | none => -1
  | some h => estimatePercentile h percentile

/-! ## TimeSeries -/

/-- Modelled from the spec: a TimeSeriesPoint is a (timestamp, delta) pair. -/
structure TSPoint where
  ts : ℚ
  delta : ℚ
  deriving DecidableEq

abbrev TimeSeries := List TSPoint

/-- Modelled from the spec: the sum of the deltas of the points whose
timestamp falls within [now - interval, now]. -/
def sumInWindow (now interval : ℚ) : TimeSeries → ℚ
  | [] => 0
  | p :: ps =>
    (if now - interval ≤ p.ts ∧ p.ts ≤ now then p.delta else 0) + sumInWindow now interval ps

/-- Modelled from the spec: rate(interval) is the windowed delta sum
divided by the interval, a per-second rate (0 when nothing is in the
window, since the numerator is then 0). -/
def rate (now interval : ℚ) (s : TimeSeries) : ℚ :=
  sumInWindow now interval s / interval

/-- The per-interval rate vector for one series, one entry per requested
query interval. -/
def rateVec (now : ℚ) (intervals : List ℚ) (s : TimeSeries) : List ℚ :=
  intervals.map (fun iv => rate now iv s)

/-! ## Cross-thread reduction (the perX* templates) -/

/-- A per-key stats block read at a resolved counter slot: the
pointer-to-member projection stats->*member is modelled as applying the
block to the slot. -/
abbrev StatsBlock := String → Int

/-- One thread's per_stream_stats / per_subscription_stats map: secondary
key to per-key block. -/
abbrev CounterShard := List (String × StatsBlock)

/-- Accumulate one (key, value) sample into the aggregation map: add to
the existing entry for the key, or append a fresh entry. -/
def addCounter (acc : List (String × Int)) (k : String) (v : Int) : List (String × Int) :=
  match acc with
  | [] => [(k, v)]
  | (k1, v1) :: rest =>
    if k = k1 then (k1, v1 + v) :: rest else (k1, v1) :: addCounter rest k v

/-- Fold one thread's shard into the aggregation map, reading each block
at the resolved slot. -/
def mergeCounterShard (slot : String) (acc : List (String × Int)) (sh : CounterShard) :
    List (String × Int) :=
  sh.foldl (fun a e => addCounter a e.1 (e.2 slot)) acc

/-- Modelled from the spec: the perXStatsGetall template behind
stream_stat_getall / subscription_stat_getall.  Resolve the stat name to a
counter slot (status -1 if it resolves to nothing); then walk every live
shard and accumulate, per secondary key, the sum of the counters read at
the slot. -/
def perXStatsGetall (tbl : List String) (shards : List CounterShard) (stat_name : String) :
    Int × List (String × Int) :=
  match resolveCounter tbl stat_name with
  | none => (-1, [])
  | some slot => (0, shards.foldl (mergeCounterShard slot) [])

/-- A per-key stats block read at a resolved time-series slot. -/
abbrev TSBlock := ℕ → TimeSeries

/-- One thread's map from secondary key to time-series block. -/
abbrev TSShard := List (String × TSBlock)

/-- The series a shard holds for a key at a slot; a key absent from the
shard contributes the empty series. -/
def seriesOf (sh : TSShard) (k : String) (slot : ℕ) : TimeSeries :=
  match lookupKV sh k with
  | none => []
  | some blk => blk slot

/-- Modelled from the spec: the perXTimeSeriesGet template behind
stream_time_series_get / subscription_time_series_get.  Resolve the stat
name (status -1 if it resolves to nothing); then, for each requested
interval, sum over all live shards the rate of that shard's series for the
key.  No validation of the intervals themselves is performed (the
verifyIntervals check in hs_stats.cpp is commented out). -/
def perXTimeSeriesGet (tbl : List (ℕ × List String)) (shards : List TSShard)
    (stat_name key : String) (now : ℚ) (ms_intervals : List ℚ) : Int × List ℚ :=
  match resolveTimeSeries tbl stat_name with
  | none => (-1, [])
  | some slot =>
    (0, ms_intervals.map (fun iv => (shards.map (fun sh => rate now iv (seriesOf sh key slot))).sum))

/-- Accumulate one key's per-interval rate vector into the aggregation
map: pointwise-add to the existing vector for the key, or append a fresh
entry. -/
def addRateVec (acc : List (String × List ℚ)) (k : String) (vs : List ℚ) :
    List (String × List ℚ) :=
  match acc with
  | [] => [(k, vs)]
  | (k1, v1) :: rest =>
    if k = k1 then (k1, List.zipWith (· + ·) v1 vs) :: rest
    else (k1, v1) :: addRateVec rest k vs

/-- Fold one thread's shard into the aggregation map: for each key present
on the shard, compute its per-interval rate vector and pointwise-add it. -/
def mergeTSShard (slot : ℕ) (now : ℚ) (intervals : List ℚ) (acc : List (String × List ℚ))
    (sh : TSShard) : List (String × List ℚ) :=
  sh.foldl (fun a e => addRateVec a e.1 (rateVec now intervals (e.2 slot))) acc

/-- Modelled from the spec: the perXTimeSeriesGetall template behind
stream_time_series_getall_by_name / subscription_time_series_getall_by_name.
Resolve the stat name (status -1 if it resolves to nothing); then, for
each thread and each key in that thread's shard, compute the per-interval
rates and aggregate them per key by pointwise sum. -/
def perXTimeSeriesGetall (tbl : List (ℕ × List String)) (shards : List TSShard)
    (stat_name : String) (now : ℚ) (ms_intervals : List ℚ) : Int × List (String × List ℚ) :=
  match resolveTimeSeries tbl stat_name with
  | none => (-1, [])
  | some slot => (0, shards.foldl (mergeTSShard slot now ms_intervals) [])

/-- The window membership test of the rate query, as a Boolean predicate
on points: the timestamp lies within [now - interval, now]. -/
def inWindow (now interval : ℚ) (p : TSPoint) : Bool :=
  decide (now - interval ≤ p.ts ∧ p.ts ≤ now)

/-- The total contribution of one shard's entries carrying a given key,
read at a slot (a shard with unique keys has at most one). -/
def sumKeyCounter (slot : String) (sh : CounterShard) (k : String) : Int :=
  ((sh.filter (fun e => decide (e.1 = k))).map (fun e => e.2 slot)).sum

/-- The counter a shard holds for a key at a slot; an absent key
contributes 0. -/
def counterAt (slot : String) (sh : CounterShard) (k : String) : Int :=
  match lookupKV sh k with
  | none => 0
  | some blk => blk slot

/-- The total rate contribution of one shard's entries carrying a given
key, at one interval (a shard with unique keys has at most one). -/
def sumKeyRate (slot : ℕ) (now : ℚ) (sh : TSShard) (k : String) (iv : ℚ) : ℚ :=
  ((sh.filter (fun e => decide (e.1 = k))).map (fun e => rate now iv (e.2 slot))).sum

/-! ## Basic lemmas -/

lemma mapCongrMem {α β : Type} (l : List α) (f g : α → β) (h : ∀ a ∈ l, f a = g a) :
    l.map f = l.map g := by
  induction l with
  | nil => rfl
  | cons a l ih =>
    simp only [List.map_cons]
    rw [h a (by simp), ih (fun a2 h2 => h a2 (by simp [h2]))]

lemma sumInWindow_eq (now interval : ℚ) (s : TimeSeries) :
    sumInWindow now interval s
      = ((s.filter (inWindow now interval)).map TSPoint.delta).sum := by
  induction s with
  | nil => simp [sumInWindow]
  | cons p ps ih =>
    by_cases h : now - interval ≤ p.ts ∧ p.ts ≤ now
    · have hb : inWindow now interval p = true := by
        simp only [inWindow, decide_eq_true_eq]; exact h
      rw [sumInWindow, if_pos h, List.filter_cons, hb]
      simp [ih]
    · have hb : inWindow now interval p = false := by
        simp only [inWindow, decide_eq_false_iff_not]; exact h
      rw [sumInWindow, if_neg h, List.filter_cons, hb]
      simp [ih]

lemma rate_nil (now interval : ℚ) : rate now interval [] = 0 := by
  simp [rate, sumInWindow]

lemma estFrom_of_counts_zero (target : ℚ) :
    ∀ (bs : Histogram) (cum : ℚ), (∀ b ∈ bs, b.count = 0) → estFrom target cum bs = 0 := by
  intro bs
  induction bs with
  | nil => intro cum _; rfl
  | cons b rest ih =>
    intro cum hz
    have hb : b.count = 0 := hz b (by simp)
    have hneg : ¬ (0 < b.count ∧ target ≤ cum + (b.count : ℚ)) := by simp [hb]
    rw [estFrom, if_neg hneg]
    exact ih _ (fun b2 hb2 => hz b2 (by simp [hb2]))

lemma natSum_eq_zero : ∀ (l : List ℕ), l.sum = 0 → ∀ x ∈ l, x = 0 := by
  intro l
  induction l with
  | nil => intro _ x hx; cases hx
  | cons a l ih =>
    intro h0 x hx
    rw [List.sum_cons] at h0
    rcases List.mem_cons.mp hx with rfl | hx2
    · omega
    · exact ih (by omega) x hx2

lemma totalCount_zero_counts (h : Histogram) (h0 : totalCount h = 0) :
    ∀ b ∈ h, b.count = 0 := by
  intro b hb
  exact natSum_eq_zero _ h0 _ (List.mem_map_of_mem _ hb)

lemma estFromCum_eq_estFrom (target : ℚ) :
    ∀ (bs : Histogram) (cum : ℚ), estFromCum target (cumBuckets cum bs) = estFrom target cum bs := by
  intro bs
  induction bs with
  | nil => intro cum; rfl
  | cons b rest ih =>
    intro cum
    have h1 : estFromCum target (cumBuckets cum (b :: rest))
        = if 0 < b.count ∧ target ≤ cum + (b.count : ℚ) then
            b.lo + (b.hi - b.lo) * ((target - cum) / (b.count : ℚ))
          else estFromCum target (cumBuckets (cum + (b.count : ℚ)) rest) := rfl
    have h2 : estFrom target cum (b :: rest)
        = if 0 < b.count ∧ target ≤ cum + (b.count : ℚ) then
            b.lo + (b.hi - b.lo) * ((target - cum) / (b.count : ℚ))
          else estFrom target (cum + (b.count : ℚ)) rest := rfl
    rw [h1, h2]
    by_cases hc : 0 < b.count ∧ target ≤ cum + (b.count : ℚ)
    · rw [if_pos hc, if_pos hc]
    · rw [if_neg hc, if_neg hc]
      exact ih (cum + (b.count : ℚ))

lemma estFrom_nonneg (target : ℚ) :
    ∀ (bs : Histogram) (cum : ℚ), (∀ b ∈ bs, 0 ≤ b.lo ∧ b.lo ≤ b.hi) →
      0 ≤ cum → cum ≤ target → 0 ≤ estFrom target cum bs := by
  intro bs
  induction bs with
  | nil => intro cum _ _ _; exact le_refl 0
  | cons b rest ih =>
    intro cum hwf hcum hle
    by_cases hc : 0 < b.count ∧ target ≤ cum + (b.count : ℚ)
    · rw [estFrom, if_pos hc]
      have hlo : 0 ≤ b.lo := (hwf b (by simp)).1
      have hhi : b.lo ≤ b.hi := (hwf b (by simp)).2
      have hcount : (0 : ℚ) < (b.count : ℚ) := by exact_mod_cast hc.1
      have : 0 ≤ (b.hi - b.lo) * ((target - cum) / (b.count : ℚ)) := by
        apply mul_nonneg (by linarith)
        apply div_nonneg (by linarith) (le_of_lt hcount)
      linarith
    · rw [estFrom, if_neg hc]
      have hwf2 : ∀ b2 ∈ rest, 0 ≤ b2.lo ∧ b2.lo ≤ b2.hi :=
        fun b2 hb2 => hwf b2 (by simp [hb2])
      have hcum2 : 0 ≤ cum + (b.count : ℚ) := by positivity
      rcases Decidable.not_and_iff_or_not.mp hc with h1 | h2
      · have : b.count = 0 := by omega
        exact ih _ hwf2 hcum2 (by simp [this]; linarith)
      · exact ih _ hwf2 hcum2 (by linarith [lt_of_not_le h2])

lemma resolveTS_foldl_no_match (s : String) :
    ∀ (tbl : List (ℕ × List String)) (acc : Option ℕ), (∀ e ∈ tbl, s ∉ e.2) →
      tbl.foldl (fun a e => if s ∈ e.2 then some e.1 else a) acc = acc := by
  intro tbl
  induction tbl with
  | nil => intro acc _; rfl
  | cons e rest ih =>
    intro acc hno
    have he : s ∉ e.2 := hno e (by simp)
    simp only [List.foldl_cons, if_neg he]
    exact ih acc (fun e2 h2 => hno e2 (by simp [h2]))

lemma resolveTS_foldl_isSome (s : String) :
    ∀ (tbl : List (ℕ × List String)) (acc : Option ℕ),
      (tbl.foldl (fun a e => if s ∈ e.2 then some e.1 else a) acc).isSome
        ↔ acc.isSome ∨ ∃ e ∈ tbl, s ∈ e.2 := by
  intro tbl
  induction tbl with
  | nil => intro acc; simp
  | cons e rest ih =>
    intro acc
    by_cases he : s ∈ e.2
    · simp only [List.foldl_cons, if_pos he, ih]
      constructor
      · intro _; exact Or.inr ⟨e, by simp, he⟩
      · intro _; exact Or.inl rfl
    · simp only [List.foldl_cons, if_neg he, ih]
      constructor
      · rintro (h | ⟨e2, h2, hs⟩)
        · exact Or.inl h
        · exact Or.inr ⟨e2, by simp [h2], hs⟩
      · rintro (h | ⟨e2, h2, hs⟩)
        · exact Or.inl h
        · rcases List.mem_cons.mp h2 with rfl | h2b
          · exact absurd hs he
          · exact Or.inr ⟨e2, h2b, hs⟩

/-! ## Counter aggregation lemmas -/

lemma lookupKV_addCounter_same (acc : List (String × Int)) (k : String) (v : Int) :
    lookupKV (addCounter acc k v) k = some ((lookupKV acc k).getD 0 + v) := by
  induction acc with
  | nil => simp [addCounter, lookupKV]
  | cons e rest ih =>
    obtain ⟨k1, v1⟩ := e
    by_cases hk : k = k1
    · subst hk
      simp [addCounter, lookupKV]
    · simp [addCounter, lookupKV, hk, ih]

lemma lookupKV_addCounter_ne (acc : List (String × Int)) (k : String) (v : Int) (k2 : String)
    (h : k2 ≠ k) : lookupKV (addCounter acc k v) k2 = lookupKV acc k2 := by
  induction acc with
  | nil => simp [addCounter, lookupKV, h]
  | cons e rest ih =>
    obtain ⟨k1, v1⟩ := e
    by_cases hk : k = k1
    · subst hk
      simp [addCounter, lookupKV, h]
    · by_cases hk2 : k2 = k1
      · subst hk2
        simp [addCounter, lookupKV, hk]
      · simp [addCounter, lookupKV, hk, hk2, ih]

lemma sumKeyCounter_cons (slot : String) (e : String × StatsBlock) (rest : CounterShard)
    (k : String) :
    sumKeyCounter slot (e :: rest) k
      = (if e.1 = k then e.2 slot else 0) + sumKeyCounter slot rest k := by
  by_cases hk : e.1 = k
  · simp [sumKeyCounter, List.filter_cons, hk]
  · simp [sumKeyCounter, List.filter_cons, hk]

lemma mergeCounterShard_lookup (slot k : String) :
    ∀ (sh : CounterShard) (acc : List (String × Int)),
      (lookupKV (mergeCounterShard slot acc sh) k).getD 0
        = (lookupKV acc k).getD 0 + sumKeyCounter slot sh k := by
  intro sh
  induction sh with
  | nil => intro acc; simp [mergeCounterShard, sumKeyCounter]
  | cons e rest ih =>
    intro acc
    have hm : mergeCounterShard slot acc (e :: rest)
        = mergeCounterShard slot (addCounter acc e.1 (e.2 slot)) rest := rfl
    rw [hm, ih, sumKeyCounter_cons]
    by_cases hk : e.1 = k
    · rw [← hk, lookupKV_addCounter_same]
      simp only [Option.getD_some, eq_self_iff_true, if_true]
      ring
    · rw [lookupKV_addCounter_ne _ _ _ _ (fun hh => hk hh.symm)]
      simp only [if_neg hk]
      ring

lemma isSome_addCounter_of (acc : List (String × Int)) (k : String) (v : Int) (k2 : String)
    (h : (lookupKV acc k2).isSome) : (lookupKV (addCounter acc k v) k2).isSome := by
  by_cases hk : k2 = k
  · subst hk
    rw [lookupKV_addCounter_same]; rfl
  · rw [lookupKV_addCounter_ne _ _ _ _ hk]; exact h

lemma isSome_addCounter_self (acc : List (String × Int)) (k : String) (v : Int) :
    (lookupKV (addCounter acc k v) k).isSome := by
  rw [lookupKV_addCounter_same]; rfl

lemma isSome_mergeCounterShard_of (slot k : String) :
    ∀ (sh : CounterShard) (acc : List (String × Int)),
      (lookupKV acc k).isSome → (lookupKV (mergeCounterShard slot acc sh) k).isSome := by
  intro sh
  induction sh with
  | nil => intro acc h; exact h
  | cons e rest ih =>
    intro acc h
    exact ih _ (isSome_addCounter_of _ _ _ _ h)

lemma isSome_mergeCounterShard_mem (slot k : String) :
    ∀ (sh : CounterShard) (acc : List (String × Int)),
      (∃ e ∈ sh, e.1 = k) → (lookupKV (mergeCounterShard slot acc sh) k).isSome := by
  intro sh
  induction sh with
  | nil => intro acc h; exact absurd h (by simp)
  | cons e rest ih =>
    intro acc h
    rcases h with ⟨e2, he2, hk⟩
    rcases List.mem_cons.mp he2 with rfl | hin
    · subst hk
      exact isSome_mergeCounterShard_of _ _ rest _ (isSome_addCounter_self _ _ _)
    · exact ih _ ⟨e2, hin, hk⟩

lemma counterGetall_core (slot k : String) :
    ∀ (shards : List CounterShard) (acc : List (String × Int)),
      (lookupKV (shards.foldl (mergeCounterShard slot) acc) k).getD 0
        = (lookupKV acc k).getD 0 + (shards.map (fun sh => sumKeyCounter slot sh k)).sum := by
  intro shards
  induction shards with
  | nil => intro acc; simp
  | cons sh rest ih =>
    intro acc
    rw [List.foldl_cons, ih, mergeCounterShard_lookup]
    simp only [List.map_cons, List.sum_cons]
    ring

lemma isSome_counterGetall (slot k : String) :
    ∀ (shards : List CounterShard) (acc : List (String × Int)),
      ((lookupKV acc k).isSome ∨ ∃ sh ∈ shards, ∃ e ∈ sh, e.1 = k) →
      (lookupKV (shards.foldl (mergeCounterShard slot) acc) k).isSome := by
  intro shards
  induction shards with
  | nil =>
    intro acc h
    rcases h with h | h
    · exact h
    · exact absurd h (by simp)
  | cons sh rest ih =>
    intro acc h
    rcases h with h | ⟨sh2, hsh2, hmem⟩
    · exact ih _ (Or.inl (isSome_mergeCounterShard_of _ _ _ _ h))
    · rcases List.mem_cons.mp hsh2 with rfl | hin
      · exact ih _ (Or.inl (isSome_mergeCounterShard_mem _ _ _ _ hmem))
      · exact ih _ (Or.inr ⟨sh2, hin, hmem⟩)

lemma sumKeyCounter_zero_of_absent (slot k : String) :
    ∀ (sh : CounterShard), (∀ e ∈ sh, e.1 ≠ k) → sumKeyCounter slot sh k = 0 := by
  intro sh
  induction sh with
  | nil => intro _; rfl
  | cons e rest ih =>
    intro h
    rw [sumKeyCounter_cons, if_neg (h e (by simp)), ih (fun e2 h2 => h e2 (by simp [h2]))]
    ring

lemma sumKeyCounter_eq_counterAt (slot k : String) :
    ∀ (sh : CounterShard), (sh.map Prod.fst).Nodup → sumKeyCounter slot sh k = counterAt slot sh k := by
  intro sh
  induction sh with
  | nil => intro _; rfl
  | cons e rest ih =>
    intro hnd
    rw [List.map_cons, List.nodup_cons] at hnd
    by_cases hk : e.1 = k
    · have habs : ∀ e2 ∈ rest, e2.1 ≠ k := by
        intro e2 h2 hk2
        exact hnd.1 (by rw [hk, ← hk2]; exact List.mem_map_of_mem _ h2)
      rw [sumKeyCounter_cons, if_pos hk, sumKeyCounter_zero_of_absent _ _ _ habs]
      have hlk : lookupKV (e :: rest) k = some e.2 := by
        simp [lookupKV, hk.symm]
      simp [counterAt, hlk]
    · rw [sumKeyCounter_cons, if_neg hk, ih hnd.2]
      have hne : k ≠ e.1 := fun hh => hk hh.symm
      have hlk : lookupKV (e :: rest) k = lookupKV rest k := by
        simp [lookupKV, hne]
      simp [counterAt, hlk]

/-! ## Time-series aggregation lemmas -/

lemma zipWithAdd_map_same (l : List ℚ) (f g : ℚ → ℚ) :
    List.zipWith (· + ·) (l.map f) (l.map g) = l.map (fun x => f x + g x) := by
  induction l with
  | nil => rfl
  | cons x l ih => simp [ih]

lemma lookupKV_addRateVec_none (acc : List (String × List ℚ)) (k : String) (vs : List ℚ)
    (h : lookupKV acc k = none) : lookupKV (addRateVec acc k vs) k = some vs := by
  induction acc with
  | nil => simp [addRateVec, lookupKV]
  | cons e rest ih =>
    obtain ⟨k1, v1⟩ := e
    by_cases hk : k = k1
    · subst hk
      simp [lookupKV] at h
    · simp only [lookupKV, if_neg hk] at h
      simp [addRateVec, lookupKV, hk, ih h]

lemma lookupKV_addRateVec_some (acc : List (String × List ℚ)) (k : String) (vs v1 : List ℚ)
    (h : lookupKV acc k = some v1) :
    lookupKV (addRateVec acc k vs) k = some (List.zipWith (· + ·) v1 vs) := by
  induction acc with
  | nil => simp [lookupKV] at h
  | cons e rest ih =>
    obtain ⟨k1, w1⟩ := e
    by_cases hk : k = k1
    · subst hk
      simp only [lookupKV, eq_self_iff_true, if_true, Option.some.injEq] at h
      subst h
      simp [addRateVec, lookupKV]
    · simp only [lookupKV, if_neg hk] at h
      simp [addRateVec, lookupKV, hk, ih h]

lemma lookupKV_addRateVec_ne (acc : List (String × List ℚ)) (k : String) (vs : List ℚ)
    (k2 : String) (h : k2 ≠ k) :
    lookupKV (addRateVec acc k vs) k2 = lookupKV acc k2 := by
  induction acc with
  | nil => simp [addRateVec, lookupKV, h]
  | cons e rest ih =>
    obtain ⟨k1, v1⟩ := e
    by_cases hk : k = k1
    · subst hk
      simp [addRateVec, lookupKV, h]
    · by_cases hk2 : k2 = k1
      · subst hk2
        simp [addRateVec, lookupKV, hk]
      · simp [addRateVec, lookupKV, hk, hk2, ih]

lemma sumKeyRate_cons (slot : ℕ) (now : ℚ) (e : String × TSBlock) (rest : TSShard)
    (k : String) (iv : ℚ) :
    sumKeyRate slot now (e :: rest) k iv
      = (if e.1 = k then rate now iv (e.2 slot) else 0) + sumKeyRate slot now rest k iv := by
  by_cases hk : e.1 = k
  · simp [sumKeyRate, List.filter_cons, hk]
  · simp [sumKeyRate, List.filter_cons, hk]

lemma sumKeyRate_zero_of_absent (slot : ℕ) (now : ℚ) (k : String) (iv : ℚ) :
    ∀ (sh : TSShard), (∀ e ∈ sh, e.1 ≠ k) → sumKeyRate slot now sh k iv = 0 := by
  intro sh
  induction sh with
  | nil => intro _; rfl
  | cons e rest ih =>
    intro h
    rw [sumKeyRate_cons, if_neg (h e (by simp)), ih (fun e2 h2 => h e2 (by simp [h2]))]
    ring

lemma mergeTSShard_lookup (slot : ℕ) (now : ℚ) (ivs : List ℚ) (k : String) :
    ∀ (sh : TSShard) (acc : List (String × List ℚ)) (F : ℚ → ℚ),
      lookupKV acc k = some (ivs.map F) →
      lookupKV (mergeTSShard slot now ivs acc sh) k
        = some (ivs.map (fun iv => F iv + sumKeyRate slot now sh k iv)) := by
  intro sh
  induction sh with
  | nil =>
    intro acc F h
    rw [show mergeTSShard slot now ivs acc [] = acc from rfl, h]
    exact congrArg some (mapCongrMem _ _ _ (fun iv _ => by simp [sumKeyRate]))
  | cons e rest ih =>
    intro acc F h
    have hm : mergeTSShard slot now ivs acc (e :: rest)
        = mergeTSShard slot now ivs (addRateVec acc e.1 (rateVec now ivs (e.2 slot))) rest := rfl
    rw [hm]
    by_cases hk : e.1 = k
    · have hv : lookupKV (addRateVec acc e.1 (rateVec now ivs (e.2 slot))) k
          = some (ivs.map (fun iv => F iv + rate now iv (e.2 slot))) := by
        rw [← hk] at h ⊢
        rw [lookupKV_addRateVec_some _ _ _ _ h]
        rw [show rateVec now ivs (e.2 slot) = ivs.map (fun iv => rate now iv (e.2 slot)) from rfl]
        rw [zipWithAdd_map_same]
      rw [ih _ (fun iv => F iv + rate now iv (e.2 slot)) hv]
      exact congrArg some (mapCongrMem _ _ _ (fun iv _ => by
        rw [sumKeyRate_cons, if_pos hk]; ring))
    · have hv : lookupKV (addRateVec acc e.1 (rateVec now ivs (e.2 slot))) k
          = some (ivs.map F) := by
        rw [lookupKV_addRateVec_ne _ _ _ _ (fun hh => hk hh.symm), h]
      rw [ih _ F hv]
      exact congrArg some (mapCongrMem _ _ _ (fun iv _ => by
        rw [sumKeyRate_cons, if_neg hk]; ring))

lemma mergeTSShard_none_absent (slot : ℕ) (now : ℚ) (ivs : List ℚ) (k : String) :
    ∀ (sh : TSShard) (acc : List (String × List ℚ)),
      lookupKV acc k = none → (∀ e ∈ sh, e.1 ≠ k) →
      lookupKV (mergeTSShard slot now ivs acc sh) k = none := by
  intro sh
  induction sh with
  | nil => intro acc h _; exact h
  | cons e rest ih =>
    intro acc h habs
    have hm : mergeTSShard slot now ivs acc (e :: rest)
        = mergeTSShard slot now ivs (addRateVec acc e.1 (rateVec now ivs (e.2 slot))) rest := rfl
    rw [hm]
    have hne : k ≠ e.1 := fun hh => habs e (by simp) hh.symm
    refine ih _ ?_ (fun e2 h2 => habs e2 (by simp [h2]))
    rw [lookupKV_addRateVec_ne _ _ _ _ hne, h]

lemma mergeTSShard_none_present (slot : ℕ) (now : ℚ) (ivs : List ℚ) (k : String) :
    ∀ (sh : TSShard) (acc : List (String × List ℚ)),
      lookupKV acc k = none → (∃ e ∈ sh, e.1 = k) →
      lookupKV (mergeTSShard slot now ivs acc sh) k
        = some (ivs.map (fun iv => sumKeyRate slot now sh k iv)) := by
  intro sh
  induction sh with
  | nil => intro acc _ hex; exact absurd hex (by simp)
  | cons e rest ih =>
    intro acc h hex
    have hm : mergeTSShard slot now ivs acc (e :: rest)
        = mergeTSShard slot now ivs (addRateVec acc e.1 (rateVec now ivs (e.2 slot))) rest := rfl
    rw [hm]
    by_cases hk : e.1 = k
    · have hv : lookupKV (addRateVec acc e.1 (rateVec now ivs (e.2 slot))) k
          = some (ivs.map (fun iv => rate now iv (e.2 slot))) := by
        rw [← hk] at h ⊢
        rw [lookupKV_addRateVec_none _ _ _ h]
        rfl
      rw [mergeTSShard_lookup slot now ivs k rest _ _ hv]
      exact congrArg some (mapCongrMem _ _ _ (fun iv _ => by
        rw [sumKeyRate_cons, if_pos hk]))
    · rcases hex with ⟨e2, he2, hk2⟩
      rcases List.mem_cons.mp he2 with rfl | hin
      · exact absurd hk2 hk
      · have hnone2 : lookupKV (addRateVec acc e.1 (rateVec now ivs (e.2 slot))) k = none := by
          rw [lookupKV_addRateVec_ne _ _ _ _ (fun hh => hk hh.symm), h]
        rw [ih _ hnone2 ⟨e2, hin, hk2⟩]
        exact congrArg some (mapCongrMem _ _ _ (fun iv _ => by
          rw [sumKeyRate_cons, if_neg hk]; ring))

lemma tsGetall_core (slot : ℕ) (now : ℚ) (ivs : List ℚ) (k : String) :
    ∀ (shards : List TSShard) (acc : List (String × List ℚ)) (F : ℚ → ℚ),
      lookupKV acc k = some (ivs.map F) →
      lookupKV (shards.foldl (mergeTSShard slot now ivs) acc) k
        = some (ivs.map (fun iv =>
            F iv + (shards.map (fun sh => sumKeyRate slot now sh k iv)).sum)) := by
  intro shards
  induction shards with
  | nil =>
    intro acc F h
    rw [List.foldl_nil, h]
    exact congrArg some (mapCongrMem _ _ _ (fun iv _ => by simp))
  | cons sh rest ih =>
    intro acc F h
    rw [List.foldl_cons]
    have hv := mergeTSShard_lookup slot now ivs k sh acc F h
    rw [ih _ (fun iv => F iv + sumKeyRate slot now sh k iv) hv]
    exact congrArg some (mapCongrMem _ _ _ (fun iv _ => by
      simp only [List.map_cons, List.sum_cons]; ring))

lemma tsGetall_from_none (slot : ℕ) (now : ℚ) (ivs : List ℚ) (k : String) :
    ∀ (shards : List TSShard) (acc : List (String × List ℚ)),
      lookupKV acc k = none → (∃ sh ∈ shards, ∃ e ∈ sh, e.1 = k) →
      lookupKV (shards.foldl (mergeTSShard slot now ivs) acc) k
        = some (ivs.map (fun iv =>
            (shards.map (fun sh => sumKeyRate slot now sh k iv)).sum)) := by
  intro shards
  induction shards with
  | nil => intro acc _ hex; exact absurd hex (by simp)
  | cons sh rest ih =>
    intro acc h hex
    rw [List.foldl_cons]
    by_cases hsh : ∃ e ∈ sh, e.1 = k
    · have hv := mergeTSShard_none_present slot now ivs k sh acc h hsh
      rw [tsGetall_core slot now ivs k rest _ (fun iv => sumKeyRate slot now sh k iv) hv]
      exact congrArg some (mapCongrMem _ _ _ (fun iv _ => by
        simp only [List.map_cons, List.sum_cons]))
    · push_neg at hsh
      have hnone2 := mergeTSShard_none_absent slot now ivs k sh acc h hsh
      rcases hex with ⟨sh2, hsh2, hmem⟩
      rcases List.mem_cons.mp hsh2 with rfl | hin
      · rcases hmem with ⟨e2, he2, hk2⟩
        exact absurd hk2 (hsh e2 he2)
      · rw [ih _ hnone2 ⟨sh2, hin, hmem⟩]
        exact congrArg some (mapCongrMem _ _ _ (fun iv _ => by
          have hz := sumKeyRate_zero_of_absent slot now k iv sh hsh
          simp only [List.map_cons, List.sum_cons, hz]; ring))

lemma sumKeyRate_eq_rate_seriesOf (slot : ℕ) (now : ℚ) (k : String) (iv : ℚ) :
    ∀ (sh : TSShard), (sh.map Prod.fst).Nodup →
      sumKeyRate slot now sh k iv = rate now iv (seriesOf sh k slot) := by
  intro sh
  induction sh with
  | nil => intro _; simp [sumKeyRate, seriesOf, lookupKV, rate_nil]
  | cons e rest ih =>
    intro hnd
    rw [List.map_cons, List.nodup_cons] at hnd
    by_cases hk : e.1 = k
    · have habs : ∀ e2 ∈ rest, e2.1 ≠ k := by
        intro e2 h2 hk2
        exact hnd.1 (by rw [hk, ← hk2]; exact List.mem_map_of_mem _ h2)
      rw [sumKeyRate_cons, if_pos hk, sumKeyRate_zero_of_absent _ _ _ _ _ habs]
      have hlk : lookupKV (e :: rest) k = some e.2 := by
        simp [lookupKV, hk.symm]
      simp [seriesOf, hlk]
    · rw [sumKeyRate_cons, if_neg hk, ih hnd.2]
      have hne : k ≠ e.1 := fun hh => hk hh.symm
      have hlk : lookupKV (e :: rest) k = lookupKV rest k := by
        simp [lookupKV, hne]
      simp [seriesOf, hlk]

/-! ## Claim theorems -/

lemma server_histogram_add_fail (stats_holder : StatsHolder) (stat_name : String) (usecs : ℚ)
    (h : findHistogram stats_holder stat_name = none) :
    server_histogram_add stats_holder stat_name usecs = (-1, stats_holder) := by
  cases stats_holder with
  | none => rfl
  | some s =>
    cases hsh : s.server_histograms with
    | none => simp [server_histogram_add, hsh]
    | some tbl =>
      have hl : lookupKV tbl stat_name = none := by simpa [findHistogram, hsh] using h
      simp [server_histogram_add, hsh, hl]

lemma server_histogram_add_ok (stats_holder : StatsHolder) (stat_name : String) (usecs : ℚ)
    (hist : Histogram) (h : findHistogram stats_holder stat_name = some hist) :
    (server_histogram_add stats_holder stat_name usecs).1 = 0 := by
  cases stats_holder with
  | none => simp [findHistogram] at h
  | some s =>
    cases hsh : s.server_histograms with
    | none => simp [findHistogram, hsh] at h
    | some tbl =>
      have hl : lookupKV tbl stat_name = some hist := by simpa [findHistogram, hsh] using h
      simp [server_histogram_add, hsh, hl]

/-- C1: for a resolvable counter stat name, the getall aggregation returns,
for each secondary key present on any live shard, the sum over all live
shards of the counter read at the resolved slot; a shard on which the key
is absent contributes 0 to the sum (counterAt of an absent key is 0) and
causes no error. -/
theorem perXStatsGetall_sums (tbl : List String) (shards : List CounterShard)
    (stat_name slot k : String)
    (hres : resolveCounter tbl stat_name = some slot)
    (hnodup : ∀ sh ∈ shards, (sh.map Prod.fst).Nodup)
    (hmem : ∃ sh ∈ shards, ∃ e ∈ sh, e.1 = k) :
    (perXStatsGetall tbl shards stat_name).1 = 0
      ∧ lookupKV (perXStatsGetall tbl shards stat_name).2 k
          = some ((shards.map (fun sh => counterAt slot sh k)).sum) := by
  have hget : perXStatsGetall tbl shards stat_name
      = (0, shards.foldl (mergeCounterShard slot) []) := by
    simp [perXStatsGetall, hres]
  rw [hget]
  refine ⟨rfl, ?_⟩
  have hsome := isSome_counterGetall slot k shards [] (Or.inr hmem)
  obtain ⟨v, hv⟩ := Option.isSome_iff_exists.mp hsome
  have hcore := counterGetall_core slot k shards []
  rw [hv] at hcore
  simp only [Option.getD_some] at hcore
  have hnil : (lookupKV ([] : List (String × Int)) k).getD 0 = 0 := rfl
  rw [hnil, zero_add] at hcore
  have hmap : shards.map (fun sh => sumKeyCounter slot sh k)
      = shards.map (fun sh => counterAt slot sh k) :=
    mapCongrMem _ _ _ (fun sh hsh => sumKeyCounter_eq_counterAt slot k sh (hnodup sh hsh))
  rw [hv]
  exact congrArg some (by rw [hcore, hmap])

/-- Witness for C1: two shards both carrying key s1 (values 3 and 4 at the
resolved slot) aggregate to 7; the second shard's extra key is no error. -/
theorem perXStatsGetall_sums_witness :
    lookupKV (perXStatsGetall ["appends"]
        [[("s1", fun _ => 3)], [("s1", fun _ => 4), ("s2", fun _ => 7)]] "appends").2 "s1"
      = some 7 := by
  have h := perXStatsGetall_sums ["appends"]
      [[("s1", fun _ => 3)], [("s1", fun _ => 4), ("s2", fun _ => 7)]]
      "appends" "appends" "s1" (by decide) (by decide) (by decide)
  rw [h.2]
  decide

/-- C4: every query function signals an unresolvable stat name with the
sentinel -1 (and empty output) rather than an exception, and returns
success when the name resolves: status 0 for the counter getall, the
time-series get/getall, histogram add and the batch percentile estimate,
and a non-negative estimate for server_histogram_estimatePercentile (on a
well-formed histogram and non-negative percentile, so that the estimate is
distinguishable from the -1 sentinel). -/
theorem queries_notfound_sentinel :
    ∀ (ctbl : List String) (ttbl : List (ℕ × List String)) (cshards : List CounterShard)
      (tshards : List TSShard) (stats_holder : StatsHolder) (stat_name key : String)
      (now : ℚ) (ivs : List ℚ) (usecs p : ℚ) (bufs : PercentileBuffers),
      (resolveCounter ctbl stat_name = none →
        perXStatsGetall ctbl cshards stat_name = (-1, [])) ∧
      ((resolveCounter ctbl stat_name).isSome →
        (perXStatsGetall ctbl cshards stat_name).1 = 0) ∧
      (resolveTimeSeries ttbl stat_name = none →
        perXTimeSeriesGet ttbl tshards stat_name key now ivs = (-1, [])
          ∧ perXTimeSeriesGetall ttbl tshards stat_name now ivs = (-1, [])) ∧
      ((resolveTimeSeries ttbl stat_name).isSome →
        (perXTimeSeriesGet ttbl tshards stat_name key now ivs).1 = 0
          ∧ (perXTimeSeriesGetall ttbl tshards stat_name now ivs).1 = 0) ∧
      (findHistogram stats_holder stat_name = none →
        (server_histogram_add stats_holder stat_name usecs).1 = -1
          ∧ (server_histogram_estimatePercentiles stats_holder stat_name ivs bufs).1 = -1
          ∧ server_histogram_estimatePercentile stats_holder stat_name p = -1) ∧
      (∀ hist, findHistogram stats_holder stat_name = some hist →
        (server_histogram_add stats_holder stat_name usecs).1 = 0
          ∧ (server_histogram_estimatePercentiles stats_holder stat_name ivs bufs).1 = 0
          ∧ (wfHistogram hist → 0 ≤ p →
              0 ≤ server_histogram_estimatePercentile stats_holder stat_name p)) := by
  intro ctbl ttbl cshards tshards stats_holder stat_name key now ivs usecs p bufs
  refine ⟨?_, ?_, ?_, ?_, ?_, ?_⟩
  · intro h; simp [perXStatsGetall, h]
  · intro h
    obtain ⟨slot, hs⟩ := Option.isSome_iff_exists.mp h
    simp [perXStatsGetall, hs]
  · intro h
    exact ⟨by simp [perXTimeSeriesGet, h], by simp [perXTimeSeriesGetall, h]⟩
  · intro h
    obtain ⟨slot, hs⟩ := Option.isSome_iff_exists.mp h
    exact ⟨by simp [perXTimeSeriesGet, hs], by simp [perXTimeSeriesGetall, hs]⟩
  · intro h
    refine ⟨?_, ?_, ?_⟩
    · rw [server_histogram_add_fail _ _ _ h]
    · simp [server_histogram_estimatePercentiles, h]
    · simp [server_histogram_estimatePercentile, h]
  · intro hist h
    refine ⟨server_histogram_add_ok _ _ _ _ h,
      by simp [server_histogram_estimatePercentiles, h], ?_⟩
    intro hwf hp
    simp only [server_histogram_estimatePercentile, h, estimatePercentile]
    exact estFrom_nonneg _ hist 0 hwf (le_refl 0) (mul_nonneg hp (by positivity))

/-- Witness for C4: concrete unresolvable and resolvable names across the
query functions: failures yield -1, successes yield 0 or a non-negative
estimate. -/
theorem queries_notfound_sentinel_witness :
    perXStatsGetall ["appends"] [] "nope" = (-1, [])
      ∧ (perXStatsGetall ["appends"] [] "appends").1 = 0
      ∧ perXTimeSeriesGet [(0, ["bps"])] [] "nope" "k" 1 [] = (-1, [])
      ∧ (perXTimeSeriesGet [(0, ["bps"])] [] "bps" "k" 1 []).1 = 0
      ∧ (server_histogram_add none "nope" 1).1 = -1
      ∧ (server_histogram_add (some ⟨some [("lat", [⟨0, 10, 2⟩])]⟩) "lat" 1).1 = 0
      ∧ 0 ≤ server_histogram_estimatePercentile
          (some ⟨some [("lat", [⟨0, 10, 2⟩])]⟩) "lat" (1/2) := by
  have h1 := queries_notfound_sentinel ["appends"] [(0, ["bps"])] [] [] none
    "nope" "k" 1 [] 1 1 ⟨[], 0, 0⟩
  have h2 := queries_notfound_sentinel ["appends"] [] [] [] none
    "appends" "k" 1 [] 1 1 ⟨[], 0, 0⟩
  have h3 := queries_notfound_sentinel [] [(0, ["bps"])] [] [] none
    "bps" "k" 1 [] 1 1 ⟨[], 0, 0⟩
  have h4 := queries_notfound_sentinel [] [] [] [] (some ⟨some [("lat", [⟨0, 10, 2⟩])]⟩)
    "lat" "k" 1 [] 1 (1/2) ⟨[], 0, 0⟩
  refine ⟨h1.1 (by decide), h2.2.1 (by decide), (h1.2.2.1 (by decide)).1,
    (h3.2.2.2.1 (by decide)).1, (h1.2.2.2.2.1 (by decide)).1,
    (h4.2.2.2.2.2 [⟨0, 10, 2⟩] (by decide)).1, ?_⟩
  refine (h4.2.2.2.2.2 [⟨0, 10, 2⟩] (by decide)).2.2 ?_ (by norm_num)
  intro b hb
  rcases List.mem_singleton.mp hb with rfl
  exact ⟨by norm_num, by norm_num⟩

/-- C2: for every interval, the time-series rate query returns the sum of
the deltas of the points whose timestamp falls within [now - interval,
now], divided by the interval; if no points fall in the window it returns
0. -/
theorem rate_windowed_sum (now interval : ℚ) (s : TimeSeries) :
    rate now interval s
        = ((s.filter (inWindow now interval)).map TSPoint.delta).sum / interval
      ∧ (s.filter (inWindow now interval) = [] → rate now interval s = 0) := by
  constructor
  · simp only [rate, sumInWindow_eq]
  · intro hf
    simp only [rate, sumInWindow_eq, hf, List.map_nil, List.sum_nil, zero_div]

/-- Witness for C2: at now = 3 with interval 1, a single point stamped 10
is outside the window, and the rate is 0. -/
theorem rate_windowed_sum_witness : rate 3 1 [⟨10, 5⟩] = 0 :=
  (rate_windowed_sum 3 1 [⟨10, 5⟩]).2 (by
    have hw : inWindow 3 1 ⟨10, 5⟩ = false := by
      simp only [inWindow, decide_eq_false_iff_not]
      norm_num
    simp [List.filter_cons, hw])

/-- C6: estimating any percentile p in [0,1] on a histogram that resolves
but contains zero samples returns 0 rather than an error. -/
theorem estimatePercentile_empty_zero (stats_holder : StatsHolder) (stat_name : String)
    (hist : Histogram) (p : ℚ)
    (hf : findHistogram stats_holder stat_name = some hist)
    (h0 : totalCount hist = 0) (hp0 : 0 ≤ p) (hp1 : p ≤ 1) :
    server_histogram_estimatePercentile stats_holder stat_name p = 0 := by
  simp only [server_histogram_estimatePercentile, hf, estimatePercentile]
  exact estFrom_of_counts_zero _ _ _ (totalCount_zero_counts hist h0)

/-- Witness for C6: a resolvable histogram with one bucket holding zero
samples estimates the median as 0. -/
theorem estimatePercentile_empty_zero_witness :
    server_histogram_estimatePercentile (some ⟨some [("lat", [⟨0, 10, 0⟩])]⟩) "lat" (1/2) = 0 :=
  estimatePercentile_empty_zero _ _ [⟨0, 10, 0⟩] _ rfl rfl (by norm_num) (by norm_num)

/-- C5: the batch server_histogram_estimatePercentiles fills samples_out
with exactly the values that separate server_histogram_estimatePercentile
calls return, one per requested percentile. -/
theorem estimatePercentiles_matches_single (stats_holder : StatsHolder) (stat_name : String)
    (hist : Histogram) (percentiles : List ℚ) (bufs : PercentileBuffers)
    (hf : findHistogram stats_holder stat_name = some hist) :
    (server_histogram_estimatePercentiles stats_holder stat_name percentiles bufs).2.samples_out
      = percentiles.map (fun p => server_histogram_estimatePercentile stats_holder stat_name p) := by
  simp only [server_histogram_estimatePercentiles, hf, estimatePercentiles,
    server_histogram_estimatePercentile, estimatePercentile]
  simp [estFromCum_eq_estFrom]

/-- Witness for C5: on a concrete two-bucket histogram the batch estimate
for [0, 1/2, 1] coincides with three single-percentile calls. -/
theorem estimatePercentiles_matches_single_witness :
    (server_histogram_estimatePercentiles (some ⟨some [("lat", [⟨0, 10, 2⟩, ⟨10, 20, 2⟩])]⟩)
        "lat" [0, 1/2, 1] ⟨[], 0, 0⟩).2.samples_out
      = [0, 1/2, 1].map (fun p =>
          server_histogram_estimatePercentile
            (some ⟨some [("lat", [⟨0, 10, 2⟩, ⟨10, 20, 2⟩])]⟩) "lat" p) :=
  estimatePercentiles_matches_single _ _ [⟨0, 10, 2⟩, ⟨10, 20, 2⟩] _ _ (by decide)

/-- C7: name resolution for time-series slots is exact (case-sensitive)
string matching over the alias lists: it succeeds precisely when the
requested string literally occurs in some entry's alias list; and two
alias strings carried by the same entry resolve to the same slot (the same
member pointer), whichever one is supplied, provided no later entry also
lists them (later entries overwrite, matching the source's loop order). -/
theorem resolveTimeSeries_exact_and_alias :
    (∀ (tbl : List (ℕ × List String)) (s : String),
        (resolveTimeSeries tbl s).isSome ↔ ∃ e ∈ tbl, s ∈ e.2)
    ∧ (∀ (l1 l2 : List (ℕ × List String)) (e : ℕ × List String) (s1 s2 : String),
        s1 ∈ e.2 → s2 ∈ e.2 → (∀ e2 ∈ l2, s1 ∉ e2.2) → (∀ e2 ∈ l2, s2 ∉ e2.2) →
        resolveTimeSeries (l1 ++ e :: l2) s1 = some e.1
          ∧ resolveTimeSeries (l1 ++ e :: l2) s2 = some e.1) := by
  constructor
  · intro tbl s
    simpa [resolveTimeSeries] using resolveTS_foldl_isSome s tbl none
  · intro l1 l2 e s1 s2 h1 h2 hn1 hn2
    constructor
    · show List.foldl _ none (l1 ++ e :: l2) = some e.1
      rw [List.foldl_append, List.foldl_cons, if_pos h1]
      exact resolveTS_foldl_no_match s1 l2 _ hn1
    · show List.foldl _ none (l1 ++ e :: l2) = some e.1
      rw [List.foldl_append, List.foldl_cons, if_pos h2]
      exact resolveTS_foldl_no_match s2 l2 _ hn2

/-- Witness for C7: both alias strings of a single table entry resolve to
its slot. -/
theorem resolveTimeSeries_exact_and_alias_witness :
    resolveTimeSeries [(5, ["appends_sent", "appends"])] "appends_sent" = some 5
      ∧ resolveTimeSeries [(5, ["appends_sent", "appends"])] "appends" = some 5 :=
  resolveTimeSeries_exact_and_alias.2 [] [] (5, ["appends_sent", "appends"])
    "appends_sent" "appends" (by decide) (by decide) (by decide) (by decide)

/-- C8: no interval validation is enforced: the status of the time-series
query functions depends only on whether the stat name resolves, never on
the requested intervals (the verifyIntervals check exists only as a
commented-out TODO), and on success one rate is produced for every
requested interval, however large. -/
theorem timeSeries_intervals_not_validated :
    ∀ (tbl : List (ℕ × List String)) (shards : List TSShard) (stat_name key : String)
      (now : ℚ) (ms_intervals : List ℚ),
      ((perXTimeSeriesGet tbl shards stat_name key now ms_intervals).1
          = if (resolveTimeSeries tbl stat_name).isSome then 0 else -1)
        ∧ ((perXTimeSeriesGetall tbl shards stat_name now ms_intervals).1
          = if (resolveTimeSeries tbl stat_name).isSome then 0 else -1)
        ∧ ((perXTimeSeriesGet tbl shards stat_name key now ms_intervals).2.length
          = if (resolveTimeSeries tbl stat_name).isSome then ms_intervals.length else 0) := by
  intro tbl shards stat_name key now ms_intervals
  cases h : resolveTimeSeries tbl stat_name <;>
    simp [perXTimeSeriesGet, perXTimeSeriesGetall, h]

/-- C9: with a null StatsHolder handle, and likewise with a holder whose
server_histograms table is absent, all three server histogram entry points
return the sentinel -1; the functions are defined (total) on these inputs,
which is the embedding's rendering of returning without dereferencing. -/
theorem histogram_null_holder_safe :
    ∀ (stat_name : String) (usecs p : ℚ) (percentiles : List ℚ) (bufs : PercentileBuffers),
      (server_histogram_add none stat_name usecs).1 = -1
      ∧ (server_histogram_estimatePercentiles none stat_name percentiles bufs).1 = -1
      ∧ server_histogram_estimatePercentile none stat_name p = -1
      ∧ (server_histogram_add (some ⟨none⟩) stat_name usecs).1 = -1
      ∧ (server_histogram_estimatePercentiles (some ⟨none⟩) stat_name percentiles bufs).1 = -1
      ∧ server_histogram_estimatePercentile (some ⟨none⟩) stat_name p = -1 := by
  intro stat_name usecs p percentiles bufs
  exact ⟨rfl, rfl, rfl, rfl, rfl, rfl⟩

/-- C10: when server_histogram_estimatePercentiles fails with -1 the out
buffers are returned untouched, and when server_histogram_add fails with
-1 the holder's state is unchanged. -/
theorem failure_leaves_state_unchanged :
    ∀ (stats_holder : StatsHolder) (stat_name : String) (percentiles : List ℚ)
      (bufs : PercentileBuffers) (usecs : ℚ),
      ((server_histogram_estimatePercentiles stats_holder stat_name percentiles bufs).1 = -1 →
        (server_histogram_estimatePercentiles stats_holder stat_name percentiles bufs).2 = bufs)
      ∧ ((server_histogram_add stats_holder stat_name usecs).1 = -1 →
        (server_histogram_add stats_holder stat_name usecs).2 = stats_holder) := by
  intro stats_holder stat_name percentiles bufs usecs
  constructor
  · cases hf : findHistogram stats_holder stat_name with
    | none => intro _; simp [server_histogram_estimatePercentiles, hf]
    | some h =>
      intro hc
      simp only [server_histogram_estimatePercentiles, hf] at hc
      exact absurd hc (by decide)
  · cases stats_holder with
    | none => intro _; rfl
    | some s =>
      cases hsh : s.server_histograms with
      | none => intro _; simp [server_histogram_add, hsh]
      | some tbl =>
        cases hl : lookupKV tbl stat_name with
        | none => intro _; simp [server_histogram_add, hsh, hl]
        | some hist =>
          intro hc
          simp only [server_histogram_add, hsh, hl] at hc
          exact absurd hc (by decide)

/-- Witness for C10: on a null holder both functions fail with -1 and
return buffers and holder unchanged. -/
theorem failure_leaves_state_unchanged_witness :
    (server_histogram_estimatePercentiles none "x" [] ⟨[], 0, 0⟩).2 = ⟨[], 0, 0⟩
      ∧ (server_histogram_add none "x" 0).2 = none :=
  ⟨(failure_leaves_state_unchanged none "x" [] ⟨[], 0, 0⟩ 0).1 (by decide),
   (failure_leaves_state_unchanged none "x" [] ⟨[], 0, 0⟩ 0).2 (by decide)⟩

/-- C3: for a resolvable time-series stat name, the cross-thread getall
aggregate equals, per requested interval and per secondary key, the sum of
the per-thread rates computed independently on each thread's series for
that key (a thread without the key contributing the rate of the empty
series, i.e. 0); it therefore also coincides with the single-key query's
answer for that key. -/
theorem perXTimeSeriesGetall_sums (ttbl : List (ℕ × List String)) (shards : List TSShard)
    (stat_name : String) (slot : ℕ) (k : String) (now : ℚ) (ivs : List ℚ)
    (hres : resolveTimeSeries ttbl stat_name = some slot)
    (hnodup : ∀ sh ∈ shards, (sh.map Prod.fst).Nodup)
    (hmem : ∃ sh ∈ shards, ∃ e ∈ sh, e.1 = k) :
    (perXTimeSeriesGetall ttbl shards stat_name now ivs).1 = 0
      ∧ lookupKV (perXTimeSeriesGetall ttbl shards stat_name now ivs).2 k
          = some (ivs.map (fun iv =>
              (shards.map (fun sh => rate now iv (seriesOf sh k slot))).sum))
      ∧ lookupKV (perXTimeSeriesGetall ttbl shards stat_name now ivs).2 k
          = some ((perXTimeSeriesGet ttbl shards stat_name k now ivs).2) := by
  have hget : perXTimeSeriesGetall ttbl shards stat_name now ivs
      = (0, shards.foldl (mergeTSShard slot now ivs) []) := by
    simp [perXTimeSeriesGetall, hres]
  have hpoint : perXTimeSeriesGet ttbl shards stat_name k now ivs
      = (0, ivs.map (fun iv =>
          (shards.map (fun sh => rate now iv (seriesOf sh k slot))).sum)) := by
    simp [perXTimeSeriesGet, hres]
  have hcore := tsGetall_from_none slot now ivs k shards [] rfl hmem
  have hmap : ivs.map (fun iv => (shards.map (fun sh => sumKeyRate slot now sh k iv)).sum)
      = ivs.map (fun iv => (shards.map (fun sh => rate now iv (seriesOf sh k slot))).sum) := by
    refine mapCongrMem _ _ _ (fun iv _ => ?_)
    rw [mapCongrMem _ _ _
      (fun sh hsh => sumKeyRate_eq_rate_seriesOf slot now k iv sh (hnodup sh hsh))]
  rw [hget, hpoint]
  have hval : lookupKV (shards.foldl (mergeTSShard slot now ivs) []) k
      = some (ivs.map (fun iv =>
          (shards.map (fun sh => rate now iv (seriesOf sh k slot))).sum)) := by
    rw [hcore, hmap]
  exact ⟨rfl, hval, hval⟩

/-- Witness for C3: two shards both recording series for key s1; at now=2
with interval 2, the per-thread rates 2 and 3 sum to 5. -/
theorem perXTimeSeriesGetall_sums_witness :
    lookupKV (perXTimeSeriesGetall [(0, ["bps"])]
        [[("s1", fun _ => [⟨1, 4⟩])], [("s1", fun _ => [⟨2, 6⟩])]] "bps" 2 [2]).2 "s1"
      = some [5] := by
  have h := perXTimeSeriesGetall_sums [(0, ["bps"])]
      [[("s1", fun _ => [⟨1, 4⟩])], [("s1", fun _ => [⟨2, 6⟩])]]
      "bps" 0 "s1" 2 [2] (by decide) (by decide) (by decide)
  rw [h.2.1]
  norm_num [seriesOf, lookupKV, rate, sumInWindow]

end HsStats
